import Mathlib

/-! Verification of the client-side entity-resolution core of the repository:
the function resolveKgSimple and its key normalizer normalizeKey
(source: the CSV-to-knowledge-graph visualizer script), together with a
model of the server-side resolution service that the repository only
documents (its design document describes models, persistence and the
service; the implementation itself is not part of the sources).

The JavaScript code is shallowly embedded: strings are Lean strings
(lists of characters), JavaScript Map objects are association lists in
insertion order, JavaScript Set objects are duplicate-free lists in
insertion order, and every loop is a structural recursion over the list
it iterates.
-/

set_option maxHeartbeats 1000000

/-! Part: The JavaScript string primitives used by normalizeKey -/

/-- Whitespace test modelling the JavaScript regular-expression class
backslash-s and the trim method (space, tab, newline, carriage return,
vertical tab, form feed, no-break space).  Only whitespace characters
satisfy it, and every character it accepts is removed again by the final
alphanumeric filter of normalizeKey, so the exact extent of this set is
irrelevant to the value of normalizeKey. -/
def isJsWs (c : Char) : Bool :=
  c = ' ' || c = '\t' || c = '\n' || c = '\r' || c = Char.ofNat 11 || c = Char.ofNat 12 || c = Char.ofNat 160

/-- Drop characters up to and including the first colon. -/
def dropThroughColon : List Char → List Char
  | [] => []
  | c :: cs => if c = ':' then cs else dropThroughColon cs

/-- Model of the prefix strip in normalizeKey: if the string contains a
colon (indexOf returns a non-negative position), keep only what follows
the first colon; otherwise keep the string unchanged. -/
def afterColon (cs : List Char) : List Char :=
  if ':' ∈ cs then dropThroughColon cs else cs

/-- Model of the JavaScript trim method: remove leading and trailing
whitespace. -/
def trimList (cs : List Char) : List Char :=
  ((cs.dropWhile isJsWs).reverse.dropWhile isJsWs).reverse

/-- Helper for collapseWs: the flag records whether the previous
character belonged to a whitespace run that has already emitted its
single space. -/
def collapseWsAux : Bool → List Char → List Char
  | _, [] => []
  | prevWs, c :: cs =>
    if isJsWs c then
      if prevWs then collapseWsAux true cs else ' ' :: collapseWsAux true cs
    else c :: collapseWsAux false cs

/-- Model of replacing every run of whitespace by a single space
(the first replace call of normalizeKey): each maximal whitespace run
becomes one space. -/
def collapseWs (cs : List Char) : List Char :=
  collapseWsAux false cs

/-- Characters kept by the final filter of normalizeKey: the regular
expression class a-z0-9. -/
def isLowerAlnum (c : Char) : Bool :=
  ('a' ≤ c && c ≤ 'z') || ('0' ≤ c && c ≤ '9')

/-- The key normalizer of resolveKgSimple.  Mirrors the source: an
optional strip of everything up to the first colon, then trim, then
toLowerCase (modelled by the character-wise lowercase map; it agrees
with the JavaScript method on every input appearing in this file), then
collapsing whitespace runs to one space, then deleting every character
outside a-z0-9. -/
def normalizeKey (ign : Bool) (id : String) : String :=
  String.mk
    ((collapseWs ((trimList (if ign then afterColon id.data else id.data)).map
      Char.toLower)).filter isLowerAlnum)

/-! Part: JavaScript Map and Set, as insertion-ordered lists -/

/-- Lookup in an insertion-ordered association list (Map.prototype.get):
value of the first entry with the given key, if any. -/
def mapGet (m : List (String × String)) (k : String) : Option String :=
  (m.find? (fun p => p.1 == k)).map Prod.snd

/-- Map.prototype.set: replace the value of an existing key in place,
otherwise append a new entry. -/
def mapSet (m : List (String × String)) (k v : String) : List (String × String) :=
  if m.any (fun p => p.1 == k) then
    m.map (fun p => if p.1 == k then (k, v) else p)
  else m ++ [(k, v)]

/-- Set.prototype.add: append the element unless already present. -/
def addUnique {α : Type} [DecidableEq α] (l : List α) (x : α) : List α :=
  if x ∈ l then l else l ++ [x]

/-- Iterating Set.prototype.add over a list: the duplicate-free list of
first occurrences, in order, after the initial elements. -/
def dedupKeepFirst {α : Type} [DecidableEq α] (l : List α) : List α :=
  l.foldl addUnique []

/-! Part: The entity loop of resolveKgSimple -/

/-- The two Map objects of resolveKgSimple: buckets maps a normalized
key to the canonical id chosen for it, oldToNew maps every seen entity
id to its canonical id. -/
structure ResState where
  buckets : List (String × String)
  oldToNew : List (String × String)
deriving DecidableEq, Repr

/-- One iteration of the for-loop over payload.entities: an empty key
maps the entity to itself and touches no bucket; a known key maps the
entity to the bucket's canonical id; a fresh key makes the entity the
canonical id of a new bucket. -/
def stepEntity (ign : Bool) (st : ResState) (eid : String) : ResState :=
  if normalizeKey ign eid = "" then { st with oldToNew := mapSet st.oldToNew eid eid }
  else
    match mapGet st.buckets (normalizeKey ign eid) with
    | some canon => { st with oldToNew := mapSet st.oldToNew eid canon }
    | none =>
      { buckets := mapSet st.buckets (normalizeKey ign eid) eid,
        oldToNew := mapSet st.oldToNew eid eid }

/-- The full for-loop over payload.entities. -/
def entityLoop (ign : Bool) : ResState → List String → ResState
  | st, [] => st
  | st, e :: es => entityLoop ign (stepEntity ign st e) es

/-- State of the two maps after processing an entity list from empty
maps. -/
def resState (ign : Bool) (es : List String) : ResState :=
  entityLoop ign ⟨[], []⟩ es

/-! Part: Relationship remapping, dedup, and final node selection -/

/-- A relation triple: subject, predicate, object. -/
abbrev Triple := String × String × String

/-- Endpoint remapping inside the relation loop of the source:
oldToNew.get(s) with fallback to the raw id when the lookup misses or
returns a falsy (empty) string. -/
def lookupCanon (m : List (String × String)) (s : String) : String :=
  match mapGet m s with
  | some v => if v = "" then s else v
  | none => s

/-- The relation loop: remap both endpoints of every triple, keeping
the predicate. -/
def remapRelations (m : List (String × String)) (rels : List Triple) : List Triple :=
  rels.map (fun tr => (lookupCanon m tr.1, tr.2.1, lookupCanon m tr.2.2))

/-- The string key used to deduplicate edges in the source:
subject, predicate and object joined with a vertical bar. -/
def joinKey (tr : Triple) : String :=
  tr.1 ++ "|" ++ tr.2.1 ++ "|" ++ tr.2.2

/-- The dedup loop over remapped relations: keep a triple only when its
join key was not seen before. -/
def dedupLoop (seen : List String) : List Triple → List Triple
  | [] => []
  | tr :: rest =>
    if joinKey tr ∈ seen then dedupLoop seen rest
    else tr :: dedupLoop (joinKey tr :: seen) rest

/-- Edge deduplication from an empty seen set. -/
def dedupRels (rels : List Triple) : List Triple :=
  dedupLoop [] rels

/-- The referenced set: both endpoints of every deduplicated relation,
added in iteration order. -/
def referencedOf (rels : List Triple) : List String :=
  rels.foldl (fun acc tr => addUnique (addUnique acc tr.1) tr.2.2) []

/-- The values of the buckets map, in insertion order
(Map.prototype.values). -/
def bucketReps (st : ResState) : List String :=
  st.buckets.map Prod.snd

/-- The payload shape consumed and produced by resolveKgSimple:
an entity id list and a relation triple list. -/
structure Payload where
  entities : List String
  relations : List Triple
deriving DecidableEq, Repr

/-- The client-side simple entity resolver of the source.  The
JavaScript defaults are pruneIsolates false and ignorePrefix true; both
are explicit parameters here. -/
def resolveKgSimple (payload : Payload) (pruneIsolates : Bool) (ign : Bool) : Payload :=
  let st := resState ign payload.entities
  let newRelations := remapRelations st.oldToNew payload.relations
  let dedupRel := dedupRels newRelations
  let referenced := referencedOf dedupRel
  let canonVals := bucketReps st
  let finalNodes :=
    if pruneIsolates then referenced else dedupKeepFirst (referenced ++ canonVals)
  ⟨finalNodes, dedupRel⟩

/-! Part: the server-side resolution service, modelled from the spec.

The repository ships only the design document of the server-side
entity-resolution module (models, normalize, cluster, persist, service);
the Python implementation itself is not among the sources.  The
definitions below therefore model that missing code from the
specification text, and the claims about relationship weights and
incremental runs are settled against this model. -/

/-- Modelled from the spec: the generic pass of the missing normalize
module (normalize.py): Unicode compatibility decomposition, lowercase,
trim, collapse internal whitespace runs to one space, strip punctuation
keeping alphanumerics and spaces.  The compatibility decomposition is
modelled as the identity, which it is on every ASCII input used here;
the optional type-specific post-passes are not modelled because no claim
settled against this model depends on them. -/
def normalizeSpec (name : String) : String :=
  let cs := name.data
  let cs := cs.map Char.toLower
  let cs := trimList cs
  let cs := collapseWs cs
  let cs := cs.filter (fun c => isLowerAlnum c || c = ' ')
  String.mk cs

/-- Modelled from the spec: one raw entity mention (external input of
the missing models module). -/
structure EntityMention where
  entityId : String
  name : String
  type : String
  documentId : String
deriving DecidableEq, Repr

/-- Modelled from the spec: one raw relationship occurrence (external
input of the missing models module). -/
structure RawRelationship where
  relId : String
  subjectId : String
  predicate : String
  objectId : String
  documentId : String
deriving DecidableEq, Repr

/-- Modelled from the spec: the deterministic resolved id, a pure
function of type and normalized name with a fixed prefix.  The hash is
modelled by the injective encoding of its preimage: determinism and
injectivity on distinct keys are the properties the specification
assigns to it. -/
def resolvedIdOf (t normName : String) : String :=
  "res::" ++ t ++ "|" ++ normName

/-- Modelled from the spec: the normalized key of a mention, the type
joined to the normalized name with a vertical bar. -/
def mentionKey (m : EntityMention) : String :=
  m.type ++ "|" ++ normalizeSpec m.name

/-- Modelled from the spec: the resolution mapping of one mention; a
mention whose name normalizes to the empty string is excluded from
canonicalization. -/
def mentionResolvedId (m : EntityMention) : Option String :=
  if normalizeSpec m.name = "" then none else some (resolvedIdOf m.type (normalizeSpec m.name))

/-- Modelled from the spec: the durable state of the four result tables
of the missing persist module, represented by their generating sets: the
historical mention set (one row per entity id, the resolution mapping
created once per raw entity) and the admitted raw relationships (one
provenance row per relationship id, append-only).  All counters are
recomputed from these sets, as the specification requires. -/
structure ResolutionState where
  mentions : List EntityMention
  admittedRels : List RawRelationship
deriving DecidableEq, Repr

/-- Append the elements of a batch whose id is not yet present, in batch
order: the insert-only upsert guarded by a uniqueness constraint. -/
def accumUnique {α : Type} [DecidableEq α] (idOf : α → String) (acc : List α) (l : List α) : List α :=
  l.foldl (fun a x => if idOf x ∈ a.map idOf then a else a ++ [x]) acc

/-- Modelled from the spec: one run of the missing resolution service
(service.py) on a batch of mentions and raw relationships.  A mention
whose entity id already has a mapping row is not re-added; a raw
relationship whose relationship id already has a provenance row is
discarded by the idempotency guard.  Every derived table below is
recomputed from the resulting state. -/
def runResolve (st : ResolutionState) (batchMentions : List EntityMention) (batchRels : List RawRelationship) : ResolutionState :=
  { mentions := accumUnique EntityMention.entityId st.mentions batchMentions,
    admittedRels := accumUnique RawRelationship.relId st.admittedRels batchRels }

/-- Modelled from the spec: endpoint lookup of the missing relationship
remapper: the resolution mapping of the endpoint's mention when it has
one, else the raw id as a pass-through canonical id. -/
def endpointCanon (mentions : List EntityMention) (eid : String) : String :=
  match mentions.find? (fun m => m.entityId == eid) with
  | some m =>
    match mentionResolvedId m with
    | some rid => rid
    | none => eid
  | none => eid

/-- Modelled from the spec: the canonical triple of a raw relationship
under the current mapping. -/
def relTriple (mentions : List EntityMention) (r : RawRelationship) : Triple :=
  (endpointCanon mentions r.subjectId, r.predicate, endpointCanon mentions r.objectId)

/-- Modelled from the spec: the weight of a canonical triple, recomputed
as the number of admitted raw relationship rows mapped to it. -/
def relWeight (st : ResolutionState) (t : Triple) : Nat :=
  (st.admittedRels.filter (fun r => relTriple st.mentions r = t)).length

/-- Modelled from the spec: the doc count of a canonical triple,
recomputed as the number of distinct document ids across its provenance
rows. -/
def relDocCount (st : ResolutionState) (t : Triple) : Nat :=
  (dedupKeepFirst ((st.admittedRels.filter (fun r => relTriple st.mentions r = t)).map RawRelationship.documentId)).length

/-- Modelled from the spec: the resolved relationships table, one row
per canonical triple with its weight and doc count. -/
def resolvedRelationships (st : ResolutionState) : List (Triple × Nat × Nat) :=
  (dedupKeepFirst (st.admittedRels.map (relTriple st.mentions))).map
    (fun t => (t, relWeight st t, relDocCount st t))

/-- Modelled from the spec: the resolved entities table, one row per
normalized key with nonempty normalized name, with resolved id, key,
mention count and doc count recomputed over the historical mention
set. -/
def resolvedEntities (st : ResolutionState) : List (String × String × Nat × Nat) :=
  (dedupKeepFirst ((st.mentions.filter (fun m => normalizeSpec m.name ≠ "")).map mentionKey)).map
    (fun k =>
      ("res::" ++ k, k,
       (st.mentions.filter (fun m => normalizeSpec m.name ≠ "" ∧ mentionKey m = k)).length,
       (dedupKeepFirst ((st.mentions.filter (fun m => normalizeSpec m.name ≠ "" ∧ mentionKey m = k)).map EntityMention.documentId)).length))

/-! Part: Specification-level descriptions of the entity loop

The loop over payload.entities is characterized by two declarative
functions: canonKg gives the canonical id assigned to an entity (itself
for an empty key, else the first entity of the list with the same key),
and repsList gives the bucket representatives in insertion order (the
first entity of each nonempty key). -/

/-- Declarative canonical id of an entity within an entity list: the
entity itself when its key is empty, otherwise the first entity of the
list sharing its key. -/
def canonKg (ign : Bool) (es : List String) (e : String) : String :=
  if normalizeKey ign e = "" then e
  else (es.find? (fun x => normalizeKey ign x == normalizeKey ign e)).getD e

/-- Declarative bucket representatives: the first entity of each
nonempty key not yet claimed by the seen set, in order. -/
def repsAux (ign : Bool) (seen : List String) : List String → List String
  | [] => []
  | e :: es =>
    if normalizeKey ign e = "" ∨ normalizeKey ign e ∈ seen then repsAux ign seen es
    else e :: repsAux ign (normalizeKey ign e :: seen) es

/-- Declarative bucket representatives of an entity list. -/
def repsList (ign : Bool) (es : List String) : List String :=
  repsAux ign [] es

/-- Endpoint closure: every relation endpoint occurs in the entity
list. -/
def ClosedPayload (p : Payload) : Prop :=
  ∀ tr ∈ p.relations, tr.1 ∈ p.entities ∧ tr.2.2 ∈ p.entities

/-- No entity id, endpoint or predicate of the payload contains the
vertical bar used by the edge dedup key. -/
def BarFree (p : Payload) : Prop :=
  (∀ e ∈ p.entities, '|' ∉ e.data) ∧
  ∀ tr ∈ p.relations, '|' ∉ tr.1.data ∧ '|' ∉ tr.2.1.data ∧ '|' ∉ tr.2.2.data

/-! Part: Lemmas: maps -/

theorem find?_replaced_self (m : List (String × String)) (k v : String)
    (h : m.any (fun p => p.1 == k) = true) :
    List.find? (fun p => p.1 == k) (m.map (fun p => if p.1 == k then (k, v) else p)) = some (k, v) := by
  induction m with
  | nil => simp at h
  | cons q m ih =>
    by_cases hq : q.1 = k
    · simp [hq]
    · have h' : m.any (fun p => p.1 == k) = true := by simpa [hq] using h
      simpa [hq] using ih h'

theorem find?_replaced_ne (m : List (String × String)) (k v k' : String) (hne : k' ≠ k) :
    List.find? (fun p => p.1 == k') (m.map (fun p => if p.1 == k then (k, v) else p)) =
      List.find? (fun p => p.1 == k') m := by
  induction m with
  | nil => rfl
  | cons q m ih =>
    rw [List.map_cons]
    by_cases hq : q.1 = k
    · have hhead : (if q.1 == k then (k, v) else q) = (k, v) := by simp [hq]
      rw [hhead, List.find?_cons_of_neg _ (by simp; exact fun h => hne h.symm),
        List.find?_cons_of_neg _ (by simp [hq]; exact fun h => hne h.symm), ih]
    · have hhead : (if q.1 == k then (k, v) else q) = q := by simp [hq]
      rw [hhead]
      by_cases hq' : q.1 = k'
      · rw [List.find?_cons_of_pos _ (by simp [hq']), List.find?_cons_of_pos _ (by simp [hq'])]
      · rw [List.find?_cons_of_neg _ (by simp [hq']), List.find?_cons_of_neg _ (by simp [hq']), ih]

theorem mapGet_mapSet_self (m : List (String × String)) (k v : String) :
    mapGet (mapSet m k v) k = some v := by
  unfold mapSet mapGet
  split
  · rename_i h
    rw [find?_replaced_self m k v h]
    rfl
  · rename_i h
    rw [List.find?_append]
    have hnone : m.find? (fun p => p.1 == k) = none := by
      rw [List.find?_eq_none]
      intro p hp hb
      exact h (List.any_eq_true.mpr ⟨p, hp, hb⟩)
    rw [hnone]
    simp

theorem mapGet_mapSet_ne (m : List (String × String)) (k v k' : String) (hne : k' ≠ k) :
    mapGet (mapSet m k v) k' = mapGet m k' := by
  unfold mapSet mapGet
  split
  · rw [find?_replaced_ne m k v k' hne]
  · rw [List.find?_append]
    have : List.find? (fun p => p.1 == k') [(k, v)] = none := by
      simp
      exact fun h => hne h.symm
    rw [this]
    cases m.find? (fun p => p.1 == k') <;> rfl

/-! Part: Lemmas: insertion-ordered sets -/

theorem mem_addUnique {α : Type} [DecidableEq α] (l : List α) (x y : α) :
    x ∈ addUnique l y ↔ x ∈ l ∨ x = y := by
  unfold addUnique
  split
  · rename_i h
    constructor
    · exact Or.inl
    · rintro (hx | rfl)
      · exact hx
      · exact h
  · simp

theorem nodup_addUnique {α : Type} [DecidableEq α] (l : List α) (y : α) (h : l.Nodup) :
    (addUnique l y).Nodup := by
  unfold addUnique
  split
  · exact h
  · rename_i hy
    simpa [List.nodup_append, hy] using h

theorem mem_foldl_addUnique {α : Type} [DecidableEq α] (l acc : List α) (x : α) :
    x ∈ l.foldl addUnique acc ↔ x ∈ acc ∨ x ∈ l := by
  induction l generalizing acc with
  | nil => simp
  | cons a l ih =>
    rw [List.foldl_cons, ih, mem_addUnique]
    constructor
    · rintro (⟨h | h⟩ | h)
      · exact Or.inl h
      · exact Or.inr (by simp [h])
      · exact Or.inr (List.mem_cons_of_mem a h)
    · rintro (h | h)
      · exact Or.inl (Or.inl h)
      · rcases List.mem_cons.mp h with h | h
        · exact Or.inl (Or.inr h)
        · exact Or.inr h

theorem nodup_foldl_addUnique {α : Type} [DecidableEq α] (l : List α) (acc : List α) (h : acc.Nodup) :
    (l.foldl addUnique acc).Nodup := by
  induction l generalizing acc with
  | nil => exact h
  | cons a l ih => exact ih _ (nodup_addUnique _ _ h)

theorem foldl_addUnique_of_nodup {α : Type} [DecidableEq α] (l : List α) (acc : List α) (h : l.Nodup) :
    l.foldl addUnique acc = acc ++ l.filter (fun x => x ∉ acc) := by
  induction l generalizing acc with
  | nil => simp
  | cons a l ih =>
    have hl : l.Nodup := (List.nodup_cons.mp h).2
    have hal : a ∉ l := (List.nodup_cons.mp h).1
    rw [List.foldl_cons]
    by_cases ha : a ∈ acc
    · rw [show addUnique acc a = acc from if_pos ha, ih _ hl]
      congr 1
      rw [List.filter_cons]
      simp [ha]
    · rw [show addUnique acc a = acc ++ [a] from if_neg ha, ih _ hl]
      rw [List.filter_cons]
      simp only [ha, not_false_eq_true, decide_True, if_pos, List.append_assoc, List.singleton_append]
      congr 2
      apply List.filter_congr
      intro x hx
      have hxa : x ≠ a := fun hxa => hal (hxa ▸ hx)
      simp [List.mem_append, hxa]

theorem dedupKeepFirst_of_nodup {α : Type} [DecidableEq α] (l : List α) (h : l.Nodup) :
    dedupKeepFirst l = l := by
  unfold dedupKeepFirst
  rw [foldl_addUnique_of_nodup _ _ h]
  simp

theorem mem_dedupKeepFirst {α : Type} [DecidableEq α] (l : List α) (x : α) :
    x ∈ dedupKeepFirst l ↔ x ∈ l := by
  unfold dedupKeepFirst
  rw [mem_foldl_addUnique]
  simp

theorem nodup_dedupKeepFirst {α : Type} [DecidableEq α] (l : List α) :
    (dedupKeepFirst l).Nodup :=
  nodup_foldl_addUnique _ _ List.nodup_nil

/-! Part: Lemmas: the entity loop -/

theorem mapSet_of_get_none (m : List (String × String)) (k v : String)
    (h : mapGet m k = none) : mapSet m k v = m ++ [(k, v)] := by
  unfold mapSet
  rw [if_neg]
  intro hany
  obtain ⟨p, hp, hb⟩ := List.any_eq_true.mp hany
  have : m.find? (fun p => p.1 == k) = none := by
    unfold mapGet at h
    cases hf : m.find? (fun p => p.1 == k) with
    | none => rfl
    | some q => rw [hf] at h; cases h
  rw [List.find?_eq_none] at this
  exact this p hp hb

theorem mapGet_keyed (f : String → String) (l : List String) (k : String) :
    mapGet (l.map (fun e => (f e, e))) k = l.find? (fun e => f e == k) := by
  induction l with
  | nil => rfl
  | cons a l ih =>
    rw [List.map_cons]
    by_cases ha : f a = k
    · unfold mapGet
      rw [List.find?_cons_of_pos _ (by simpa using ha), List.find?_cons_of_pos _ (by simpa using ha)]
      rfl
    · unfold mapGet
      rw [List.find?_cons_of_neg _ (by simpa using ha), List.find?_cons_of_neg _ (by simpa using ha)]
      exact ih

theorem entityLoop_snoc (ign : Bool) (st : ResState) (es : List String) (a : String) :
    entityLoop ign st (es ++ [a]) = stepEntity ign (entityLoop ign st es) a := by
  induction es generalizing st with
  | nil => rfl
  | cons e es ih => exact ih (stepEntity ign st e)

theorem repsAux_congr (ign : Bool) (s1 s2 : List String) (es : List String)
    (h : ∀ x, x ∈ s1 ↔ x ∈ s2) : repsAux ign s1 es = repsAux ign s2 es := by
  induction es generalizing s1 s2 with
  | nil => rfl
  | cons e es ih =>
    unfold repsAux
    by_cases hc : normalizeKey ign e = "" ∨ normalizeKey ign e ∈ s1
    · rw [if_pos hc, if_pos (by rcases hc with hc | hc; exact Or.inl hc; exact Or.inr ((h _).mp hc))]
      exact ih s1 s2 h
    · rw [if_neg hc, if_neg (by rintro (hc' | hc'); exact hc (Or.inl hc'); exact hc (Or.inr ((h _).mpr hc')))]
      rw [ih (normalizeKey ign e :: s1) (normalizeKey ign e :: s2) (by intro x; simp [h x])]

theorem repsAux_find? (ign : Bool) (seen : List String) (es : List String) (k : String)
    (hk : k ≠ "") (hs : k ∉ seen) :
    (repsAux ign seen es).find? (fun x => normalizeKey ign x == k) =
      es.find? (fun x => normalizeKey ign x == k) := by
  induction es generalizing seen with
  | nil => rfl
  | cons e es ih =>
    unfold repsAux
    by_cases hc : normalizeKey ign e = "" ∨ normalizeKey ign e ∈ seen
    · rw [if_pos hc]
      have hne : normalizeKey ign e ≠ k := by
        rcases hc with hc | hc
        · rw [hc]; exact fun h => hk h.symm
        · exact fun h => hs (h ▸ hc)
      rw [List.find?_cons_of_neg _ (by simpa using hne)]
      exact ih seen hs
    · rw [if_neg hc]
      by_cases hek : normalizeKey ign e = k
      · rw [List.find?_cons_of_pos _ (by simpa using hek), List.find?_cons_of_pos _ (by simpa using hek)]
      · rw [List.find?_cons_of_neg _ (by simpa using hek), List.find?_cons_of_neg _ (by simpa using hek)]
        refine ih (normalizeKey ign e :: seen) ?_
        intro hmem
        rw [List.mem_cons] at hmem
        rcases hmem with h | h
        · exact hek h.symm
        · exact hs h

theorem mem_map_iff_find? (f : String → String) (l : List String) (k : String) :
    k ∈ l.map f ↔ (l.find? (fun x => f x == k)).isSome := by
  induction l with
  | nil => simp
  | cons a l ih =>
    by_cases ha : f a = k
    · rw [List.map_cons, @List.find?_cons_of_pos _ (fun x => f x == k) a l (by simpa using ha)]
      simp [ha]
    · rw [List.map_cons, List.find?_cons_of_neg _ (by simpa using ha)]
      simp only [List.mem_cons, ← ih]
      constructor
      · rintro (h | h)
        · exact absurd h.symm ha
        · exact h
      · exact Or.inr

theorem repsAux_snoc (ign : Bool) (seen : List String) (es : List String) (a : String) :
    repsAux ign seen (es ++ [a]) =
      repsAux ign seen es ++
        (if normalizeKey ign a = "" ∨ normalizeKey ign a ∈ seen ∨
            normalizeKey ign a ∈ es.map (normalizeKey ign) then [] else [a]) := by
  induction es generalizing seen with
  | nil =>
    simp only [List.nil_append, List.map_nil]
    unfold repsAux
    by_cases hc : normalizeKey ign a = "" ∨ normalizeKey ign a ∈ seen
    · rw [if_pos hc, if_pos (by rcases hc with hc | hc; exact Or.inl hc; exact Or.inr (Or.inl hc))]
      rfl
    · rw [if_neg hc, if_neg (by
        rintro (hc' | hc' | hc')
        · exact hc (Or.inl hc')
        · exact hc (Or.inr hc')
        · simp at hc')]
      rfl
  | cons e es ih =>
    rw [List.cons_append]
    unfold repsAux
    by_cases hc : normalizeKey ign e = "" ∨ normalizeKey ign e ∈ seen
    · rw [if_pos hc, if_pos hc, ih seen]
      congr 1
      by_cases hca : normalizeKey ign a = "" ∨ normalizeKey ign a ∈ seen ∨ normalizeKey ign a ∈ es.map (normalizeKey ign)
      · rw [if_pos hca, if_pos (by
          rcases hca with hca | hca | hca
          · exact Or.inl hca
          · exact Or.inr (Or.inl hca)
          · exact Or.inr (Or.inr (by simp [hca])))]
      · rw [if_neg hca, if_neg (by
          rintro (hca' | hca' | hca')
          · exact hca (Or.inl hca')
          · exact hca (Or.inr (Or.inl hca'))
          · rw [List.map_cons, List.mem_cons] at hca'
            rcases hca' with hca' | hca'
            · rcases hc with hc | hc
              · exact hca (Or.inl (hca'.trans hc))
              · exact hca (Or.inr (Or.inl (hca' ▸ hc)))
            · exact hca (Or.inr (Or.inr hca')))]
    · rw [if_neg hc, if_neg hc, List.cons_append, ih (normalizeKey ign e :: seen)]
      congr 2
      by_cases hca : normalizeKey ign a = "" ∨ normalizeKey ign a ∈ normalizeKey ign e :: seen ∨
          normalizeKey ign a ∈ es.map (normalizeKey ign)
      · rw [if_pos hca, if_pos (by
          rcases hca with hca | hca | hca
          · exact Or.inl hca
          · rw [List.mem_cons] at hca
            rcases hca with hca | hca
            · exact Or.inr (Or.inr (by simp [hca]))
            · exact Or.inr (Or.inl hca)
          · exact Or.inr (Or.inr (by simp [hca])))]
      · rw [if_neg hca, if_neg (by
          rintro (hca' | hca' | hca')
          · exact hca (Or.inl hca')
          · exact hca (Or.inr (Or.inl (List.mem_cons_of_mem _ hca')))
          · rw [List.map_cons, List.mem_cons] at hca'
            rcases hca' with hca' | hca'
            · exact hca (Or.inr (Or.inl (by simp [hca'])))
            · exact hca (Or.inr (Or.inr hca')))]

theorem find?_key_self (ign : Bool) (es : List String) (e : String) (he : e ∈ es) :
    ∃ f, es.find? (fun x => normalizeKey ign x == normalizeKey ign e) = some f ∧
      normalizeKey ign f = normalizeKey ign e ∧ f ∈ es := by
  have hsome := (mem_map_iff_find? (normalizeKey ign) es (normalizeKey ign e)).mp
    (List.mem_map_of_mem _ he)
  obtain ⟨f, hf⟩ := Option.isSome_iff_exists.mp hsome
  exact ⟨f, hf, by simpa using List.find?_some hf, List.mem_of_find?_eq_some hf⟩

theorem canonKg_snoc_of_mem (ign : Bool) (es : List String) (a e : String) (he : e ∈ es) :
    canonKg ign (es ++ [a]) e = canonKg ign es e := by
  unfold canonKg
  by_cases hk : normalizeKey ign e = ""
  · rw [if_pos hk, if_pos hk]
  · rw [if_neg hk, if_neg hk, List.find?_append]
    obtain ⟨f, hf, _, _⟩ := find?_key_self ign es e he
    rw [hf]
    rfl

theorem repsList_snoc (ign : Bool) (es : List String) (a : String) :
    repsList ign (es ++ [a]) =
      repsList ign es ++
        (if normalizeKey ign a = "" ∨ normalizeKey ign a ∈ es.map (normalizeKey ign)
         then [] else [a]) := by
  unfold repsList
  rw [repsAux_snoc]
  congr 1
  by_cases h : normalizeKey ign a = "" ∨ normalizeKey ign a ∈ es.map (normalizeKey ign)
  · rw [if_pos h, if_pos (by
      rcases h with h | h
      · exact Or.inl h
      · exact Or.inr (Or.inr h))]
  · rw [if_neg h, if_neg (by
      rintro (h' | h' | h')
      · exact h (Or.inl h')
      · simp at h'
      · exact h (Or.inr h'))]

theorem resState_spec (ign : Bool) (es : List String) :
    (resState ign es).buckets = (repsList ign es).map (fun e => (normalizeKey ign e, e)) ∧
    ∀ e, mapGet (resState ign es).oldToNew e =
      if e ∈ es then some (canonKg ign es e) else none := by
  induction es using List.reverseRecOn with
  | nil =>
    refine ⟨rfl, fun e => ?_⟩
    simp [resState, entityLoop, mapGet]
  | append_singleton es a ih =>
    obtain ⟨ih1, ih2⟩ := ih
    have hstep : resState ign (es ++ [a]) = stepEntity ign (resState ign es) a :=
      entityLoop_snoc ign ⟨[], []⟩ es a
    rw [hstep]
    unfold stepEntity
    by_cases hk : normalizeKey ign a = ""
    · rw [if_pos hk]
      refine ⟨?_, fun e => ?_⟩
      · show (resState ign es).buckets = _
        rw [ih1, repsList_snoc, if_pos (Or.inl hk)]
        simp
      · show mapGet (mapSet (resState ign es).oldToNew a a) e = _
        by_cases hea : e = a
        · subst hea
          rw [mapGet_mapSet_self, if_pos (by simp)]
          unfold canonKg
          rw [if_pos hk]
        · rw [mapGet_mapSet_ne _ _ _ _ hea, ih2 e]
          by_cases hes : e ∈ es
          · rw [if_pos hes, if_pos (by simp [hes]), canonKg_snoc_of_mem ign es a e hes]
          · rw [if_neg hes, if_neg (by simp [hes, hea])]
    · rw [if_neg hk]
      have hbg2 : mapGet (resState ign es).buckets (normalizeKey ign a) =
          es.find? (fun x => normalizeKey ign x == normalizeKey ign a) := by
        rw [ih1, mapGet_keyed]
        unfold repsList
        exact repsAux_find? ign [] es _ hk (by simp)
      cases hfind : es.find? (fun x => normalizeKey ign x == normalizeKey ign a) with
      | some canon =>
        rw [hbg2, hfind]
        have hmem : normalizeKey ign a ∈ es.map (normalizeKey ign) := by
          rw [mem_map_iff_find?, hfind]
          rfl
        refine ⟨?_, fun e => ?_⟩
        · show (resState ign es).buckets = _
          rw [ih1, repsList_snoc, if_pos (Or.inr hmem)]
          simp
        · show mapGet (mapSet (resState ign es).oldToNew a canon) e = _
          by_cases hea : e = a
          · subst hea
            rw [mapGet_mapSet_self, if_pos (by simp)]
            unfold canonKg
            rw [if_neg hk, List.find?_append, hfind]
            rfl
          · rw [mapGet_mapSet_ne _ _ _ _ hea, ih2 e]
            by_cases hes : e ∈ es
            · rw [if_pos hes, if_pos (by simp [hes]), canonKg_snoc_of_mem ign es a e hes]
            · rw [if_neg hes, if_neg (by simp [hes, hea])]
      | none =>
        rw [hbg2, hfind]
        have hnone : mapGet (resState ign es).buckets (normalizeKey ign a) = none := by
          rw [hbg2, hfind]
        have hnm : normalizeKey ign a ∉ es.map (normalizeKey ign) := by
          rw [mem_map_iff_find?, hfind]
          simp
        refine ⟨?_, fun e => ?_⟩
        · show mapSet (resState ign es).buckets (normalizeKey ign a) a = _
          rw [mapSet_of_get_none _ _ _ hnone, ih1, repsList_snoc,
            if_neg (by rintro (h | h); exact hk h; exact hnm h)]
          simp
        · show mapGet (mapSet (resState ign es).oldToNew a a) e = _
          by_cases hea : e = a
          · subst hea
            rw [mapGet_mapSet_self, if_pos (by simp)]
            unfold canonKg
            rw [if_neg hk, List.find?_append, hfind]
            have hsing : [e].find? (fun x => normalizeKey ign x == normalizeKey ign e) = some e := by
              simp
            rw [hsing]
            rfl
          · rw [mapGet_mapSet_ne _ _ _ _ hea, ih2 e]
            by_cases hes : e ∈ es
            · rw [if_pos hes, if_pos (by simp [hes]), canonKg_snoc_of_mem ign es a e hes]
            · rw [if_neg hes, if_neg (by simp [hes, hea])]

theorem resState_oldToNew_of_mem (ign : Bool) (es : List String) (e : String) (he : e ∈ es) :
    mapGet (resState ign es).oldToNew e = some (canonKg ign es e) := by
  rw [(resState_spec ign es).2 e, if_pos he]

theorem resState_oldToNew_of_not_mem (ign : Bool) (es : List String) (e : String) (he : e ∉ es) :
    mapGet (resState ign es).oldToNew e = none := by
  rw [(resState_spec ign es).2 e, if_neg he]

theorem bucketReps_resState (ign : Bool) (es : List String) :
    bucketReps (resState ign es) = repsList ign es := by
  unfold bucketReps
  rw [(resState_spec ign es).1, List.map_map,
    show (Prod.snd ∘ fun e => (normalizeKey ign e, e)) = id from rfl, List.map_id]

theorem normalizeKey_empty (ign : Bool) : normalizeKey ign "" = "" := by
  cases ign <;> rfl

theorem canonKg_key (ign : Bool) (es : List String) (e : String) :
    normalizeKey ign (canonKg ign es e) = normalizeKey ign e := by
  unfold canonKg
  by_cases hk : normalizeKey ign e = ""
  · rw [if_pos hk]
  · rw [if_neg hk]
    cases hfind : es.find? (fun x => normalizeKey ign x == normalizeKey ign e) with
    | none => rfl
    | some f => simpa using List.find?_some hfind

theorem canonKg_mem (ign : Bool) (es : List String) (e : String) (he : e ∈ es) :
    canonKg ign es e ∈ es := by
  unfold canonKg
  by_cases hk : normalizeKey ign e = ""
  · rw [if_pos hk]; exact he
  · rw [if_neg hk]
    obtain ⟨f, hf, _, hfm⟩ := find?_key_self ign es e he
    rw [hf]
    exact hfm

theorem canonKg_eq_of_same_key (ign : Bool) (es : List String) (e1 e2 : String)
    (h1 : e1 ∈ es) (hk : normalizeKey ign e1 = normalizeKey ign e2)
    (hne : normalizeKey ign e1 ≠ "") :
    canonKg ign es e1 = canonKg ign es e2 := by
  unfold canonKg
  rw [if_neg hne, if_neg (hk ▸ hne), ← hk]
  obtain ⟨f, hf, _, _⟩ := find?_key_self ign es e1 h1
  rw [hf]
  rfl

theorem lookupCanon_of_mem (ign : Bool) (es : List String) (e : String) (he : e ∈ es) :
    lookupCanon (resState ign es).oldToNew e = canonKg ign es e := by
  unfold lookupCanon
  rw [resState_oldToNew_of_mem ign es e he]
  show (if canonKg ign es e = "" then e else canonKg ign es e) = canonKg ign es e
  by_cases hc : canonKg ign es e = ""
  · rw [if_pos hc]
    have hkey := canonKg_key ign es e
    rw [hc, normalizeKey_empty] at hkey
    have hce : canonKg ign es e = e := by
      unfold canonKg
      rw [if_pos hkey.symm]
    exact hce.symm
  · rw [if_neg hc]

theorem lookupCanon_of_not_mem (ign : Bool) (es : List String) (e : String) (he : e ∉ es) :
    lookupCanon (resState ign es).oldToNew e = e := by
  unfold lookupCanon
  rw [resState_oldToNew_of_not_mem ign es e he]

theorem mem_repsAux (ign : Bool) (seen : List String) (es : List String) (x : String) :
    x ∈ repsAux ign seen es ↔
      normalizeKey ign x ≠ "" ∧ normalizeKey ign x ∉ seen ∧
        es.find? (fun y => normalizeKey ign y == normalizeKey ign x) = some x := by
  induction es generalizing seen with
  | nil => simp [repsAux]
  | cons e es ih =>
    unfold repsAux
    by_cases hc : normalizeKey ign e = "" ∨ normalizeKey ign e ∈ seen
    · rw [if_pos hc, ih seen]
      constructor
      · rintro ⟨hx1, hx2, hx3⟩
        refine ⟨hx1, hx2, ?_⟩
        rw [List.find?_cons_of_neg _ (by
          simp only [beq_iff_eq]
          rcases hc with hc | hc
          · rw [hc]; exact fun h => hx1 h.symm
          · exact fun h => hx2 (h ▸ hc))]
        exact hx3
      · rintro ⟨hx1, hx2, hx3⟩
        refine ⟨hx1, hx2, ?_⟩
        rw [List.find?_cons_of_neg _ (by
          simp only [beq_iff_eq]
          rcases hc with hc | hc
          · rw [hc]; exact fun h => hx1 h.symm
          · exact fun h => hx2 (h ▸ hc))] at hx3
        exact hx3
    · rw [if_neg hc]
      push_neg at hc
      obtain ⟨hne, hns⟩ := hc
      constructor
      · intro hx
        rcases List.mem_cons.mp hx with rfl | hx
        · exact ⟨hne, hns, by rw [List.find?_cons_of_pos _ (by simp)]⟩
        · obtain ⟨hx1, hx2, hx3⟩ := (ih (normalizeKey ign e :: seen)).mp hx
          rw [List.mem_cons] at hx2
          push_neg at hx2
          refine ⟨hx1, hx2.2, ?_⟩
          rw [List.find?_cons_of_neg _ (by simp only [beq_iff_eq]; exact fun h => hx2.1 h.symm)]
          exact hx3
      · rintro ⟨hx1, hx2, hx3⟩
        by_cases hex : normalizeKey ign e = normalizeKey ign x
        · rw [List.find?_cons_of_pos _ (by simpa using hex)] at hx3
          cases hx3
          exact List.mem_cons_self _ _
        · rw [List.find?_cons_of_neg _ (by simpa using hex)] at hx3
          refine List.mem_cons_of_mem e ((ih (normalizeKey ign e :: seen)).mpr ⟨hx1, ?_, hx3⟩)
          rw [List.mem_cons]
          push_neg
          exact ⟨fun h => hex h.symm, hx2⟩

theorem mem_repsList (ign : Bool) (es : List String) (x : String) :
    x ∈ repsList ign es ↔
      normalizeKey ign x ≠ "" ∧
        es.find? (fun y => normalizeKey ign y == normalizeKey ign x) = some x := by
  unfold repsList
  rw [mem_repsAux]
  simp

theorem repsList_key_injective (ign : Bool) (es : List String) (x y : String)
    (hx : x ∈ repsList ign es) (hy : y ∈ repsList ign es)
    (hk : normalizeKey ign x = normalizeKey ign y) : x = y := by
  rw [mem_repsList] at hx hy
  have h1 := hx.2
  have h2 := hy.2
  rw [hk] at h1
  rw [h1] at h2
  exact Option.some_inj.mp h2

theorem repsList_subset (ign : Bool) (es : List String) (x : String)
    (hx : x ∈ repsList ign es) : x ∈ es := by
  rw [mem_repsList] at hx
  exact List.mem_of_find?_eq_some hx.2

theorem repsAux_nodup (ign : Bool) (seen : List String) (es : List String) :
    (repsAux ign seen es).Nodup := by
  induction es generalizing seen with
  | nil => exact List.nodup_nil
  | cons e es ih =>
    unfold repsAux
    by_cases hc : normalizeKey ign e = "" ∨ normalizeKey ign e ∈ seen
    · rw [if_pos hc]; exact ih seen
    · rw [if_neg hc]
      rw [List.nodup_cons]
      refine ⟨fun hmem => ?_, ih _⟩
      have := (mem_repsAux ign _ es e).mp hmem
      exact this.2.1 (List.mem_cons_self _ _)

theorem repsList_nodup (ign : Bool) (es : List String) : (repsList ign es).Nodup :=
  repsAux_nodup ign [] es

/-! Part: Lemmas: edge dedup and the referenced set -/

theorem mem_of_dedupLoop (seen : List String) (l : List Triple) (tr : Triple)
    (h : tr ∈ dedupLoop seen l) : tr ∈ l := by
  induction l generalizing seen with
  | nil => cases h
  | cons a l ih =>
    unfold dedupLoop at h
    by_cases ha : joinKey a ∈ seen
    · rw [if_pos ha] at h
      exact List.mem_cons_of_mem a (ih seen h)
    · rw [if_neg ha] at h
      rcases List.mem_cons.mp h with rfl | h
      · exact List.mem_cons_self _ _
      · exact List.mem_cons_of_mem a (ih _ h)

theorem dedupLoop_keys_fresh (seen : List String) (l : List Triple) (k : String)
    (hk : k ∈ (dedupLoop seen l).map joinKey) : k ∉ seen := by
  induction l generalizing seen with
  | nil => cases hk
  | cons a l ih =>
    unfold dedupLoop at hk
    by_cases ha : joinKey a ∈ seen
    · rw [if_pos ha] at hk
      exact ih seen hk
    · rw [if_neg ha] at hk
      rw [List.map_cons, List.mem_cons] at hk
      rcases hk with rfl | hk
      · exact ha
      · intro hks
        exact ih _ hk (List.mem_cons_of_mem _ hks)

theorem dedupLoop_keys_nodup (seen : List String) (l : List Triple) :
    ((dedupLoop seen l).map joinKey).Nodup := by
  induction l generalizing seen with
  | nil => exact List.nodup_nil
  | cons a l ih =>
    unfold dedupLoop
    by_cases ha : joinKey a ∈ seen
    · rw [if_pos ha]
      exact ih seen
    · rw [if_neg ha, List.map_cons, List.nodup_cons]
      refine ⟨fun hmem => ?_, ih _⟩
      exact dedupLoop_keys_fresh _ _ _ hmem (List.mem_cons_self _ _)

theorem dedupLoop_eq_self (seen : List String) (l : List Triple)
    (h1 : (l.map joinKey).Nodup) (h2 : ∀ k ∈ l.map joinKey, k ∉ seen) :
    dedupLoop seen l = l := by
  induction l generalizing seen with
  | nil => rfl
  | cons a l ih =>
    unfold dedupLoop
    rw [if_neg (h2 (joinKey a) (by simp))]
    congr 1
    rw [List.map_cons, List.nodup_cons] at h1
    refine ih _ h1.2 ?_
    intro k hk
    rw [List.mem_cons]
    push_neg
    refine ⟨fun he => h1.1 (he ▸ hk), h2 k (List.mem_cons_of_mem _ hk)⟩

theorem dedupRels_idem (l : List Triple) : dedupRels (dedupRels l) = dedupRels l :=
  dedupLoop_eq_self [] (dedupRels l) (dedupLoop_keys_nodup [] l) (by intro k _; simp)

theorem mem_dedupLoop_of_unique (seen : List String) (l : List Triple) (tr : Triple)
    (hmem : tr ∈ l) (hseen : joinKey tr ∉ seen)
    (huniq : ∀ tr' ∈ l, joinKey tr' = joinKey tr → tr' = tr) :
    tr ∈ dedupLoop seen l := by
  induction l generalizing seen with
  | nil => cases hmem
  | cons a l ih =>
    unfold dedupLoop
    rcases List.mem_cons.mp hmem with rfl | hmem
    · rw [if_neg hseen]
      exact List.mem_cons_self _ _
    · by_cases ha : joinKey a ∈ seen
      · rw [if_pos ha]
        exact ih seen hmem hseen (fun tr' h' => huniq tr' (List.mem_cons_of_mem a h'))
      · rw [if_neg ha]
        by_cases hat : joinKey a = joinKey tr
        · have : a = tr := huniq a (List.mem_cons_self _ _) hat
          subst this
          exact List.mem_cons_self _ _
        · refine List.mem_cons_of_mem a (ih _ hmem ?_ (fun tr' h' => huniq tr' (List.mem_cons_of_mem a h')))
          rw [List.mem_cons]
          push_neg
          exact ⟨fun h => hat h.symm, hseen⟩

theorem mem_referenced_foldl (l : List Triple) (acc : List String) (x : String) :
    x ∈ l.foldl (fun acc tr => addUnique (addUnique acc tr.1) tr.2.2) acc ↔
      x ∈ acc ∨ ∃ tr ∈ l, x = tr.1 ∨ x = tr.2.2 := by
  induction l generalizing acc with
  | nil => simp
  | cons a l ih =>
    rw [List.foldl_cons, ih, mem_addUnique, mem_addUnique]
    constructor
    · rintro (((h | h) | h) | ⟨tr, htr, h⟩)
      · exact Or.inl h
      · exact Or.inr ⟨a, List.mem_cons_self _ _, Or.inl h⟩
      · exact Or.inr ⟨a, List.mem_cons_self _ _, Or.inr h⟩
      · exact Or.inr ⟨tr, List.mem_cons_of_mem a htr, h⟩
    · rintro (h | ⟨tr, htr, h⟩)
      · exact Or.inl (Or.inl (Or.inl h))
      · rcases List.mem_cons.mp htr with rfl | htr
        · rcases h with h | h
          · exact Or.inl (Or.inl (Or.inr h))
          · exact Or.inl (Or.inr h)
        · exact Or.inr ⟨tr, htr, h⟩

theorem mem_referencedOf (l : List Triple) (x : String) :
    x ∈ referencedOf l ↔ ∃ tr ∈ l, x = tr.1 ∨ x = tr.2.2 := by
  unfold referencedOf
  rw [mem_referenced_foldl]
  simp

theorem endpoints_mem_referencedOf (l : List Triple) (tr : Triple) (h : tr ∈ l) :
    tr.1 ∈ referencedOf l ∧ tr.2.2 ∈ referencedOf l :=
  ⟨(mem_referencedOf l tr.1).mpr ⟨tr, h, Or.inl rfl⟩,
   (mem_referencedOf l tr.2.2).mpr ⟨tr, h, Or.inr rfl⟩⟩

theorem referencedOf_nodup (l : List Triple) : (referencedOf l).Nodup := by
  unfold referencedOf
  generalize hacc : ([] : List String) = acc
  have hnd : acc.Nodup := hacc ▸ List.nodup_nil
  clear hacc
  induction l generalizing acc with
  | nil => exact hnd
  | cons a l ih => exact ih _ (nodup_addUnique _ _ (nodup_addUnique _ _ hnd))

/-! Part: Lemmas: the output of resolveKgSimple -/

theorem out_relations (p : Payload) (b ign : Bool) :
    (resolveKgSimple p b ign).relations =
      dedupRels (remapRelations (resState ign p.entities).oldToNew p.relations) := rfl

theorem out_entities (p : Payload) (b ign : Bool) :
    (resolveKgSimple p b ign).entities =
      if b then referencedOf (resolveKgSimple p b ign).relations
      else dedupKeepFirst (referencedOf (resolveKgSimple p b ign).relations ++ repsList ign p.entities) := by
  rw [← bucketReps_resState ign p.entities]
  rfl

theorem canonKg_cases (ign : Bool) (es : List String) (e : String) (he : e ∈ es) :
    canonKg ign es e ∈ repsList ign es ∨ normalizeKey ign (canonKg ign es e) = "" := by
  by_cases hk : normalizeKey ign e = ""
  · right
    rw [canonKg_key, hk]
  · left
    obtain ⟨f, hf, hkf, hfm⟩ := find?_key_self ign es e he
    have hce : canonKg ign es e = f := by
      unfold canonKg
      rw [if_neg hk, hf]
      rfl
    rw [hce, mem_repsList]
    refine ⟨by rw [hkf]; exact hk, ?_⟩
    have hpred : (fun y => normalizeKey ign y == normalizeKey ign f) =
        (fun y => normalizeKey ign y == normalizeKey ign e) := by
      funext y
      rw [hkf]
    rw [hpred, hf]

theorem ref_endpoint_cases (ign b : Bool) (p : Payload) (hcl : ClosedPayload p) (x : String)
    (hx : x ∈ referencedOf ((resolveKgSimple p b ign).relations)) :
    x ∈ repsList ign p.entities ∨ normalizeKey ign x = "" := by
  rw [mem_referencedOf] at hx
  obtain ⟨tr, htr, hend⟩ := hx
  rw [out_relations] at htr
  have htr' : tr ∈ remapRelations (resState ign p.entities).oldToNew p.relations :=
    mem_of_dedupLoop _ _ _ htr
  rw [remapRelations, List.mem_map] at htr'
  obtain ⟨tr0, htr0, rfl⟩ := htr'
  obtain ⟨hs, ht⟩ := hcl tr0 htr0
  rcases hend with rfl | rfl
  · rw [lookupCanon_of_mem ign p.entities tr0.1 hs]
    exact canonKg_cases ign p.entities tr0.1 hs
  · rw [lookupCanon_of_mem ign p.entities tr0.2.2 ht]
    exact canonKg_cases ign p.entities tr0.2.2 ht

theorem out_entities_cases (ign b : Bool) (p : Payload) (hcl : ClosedPayload p) (x : String)
    (hx : x ∈ (resolveKgSimple p b ign).entities) :
    x ∈ repsList ign p.entities ∨ normalizeKey ign x = "" := by
  rw [out_entities] at hx
  by_cases hb : b
  · rw [if_pos hb] at hx
    exact ref_endpoint_cases ign b p hcl x hx
  · rw [if_neg hb] at hx
    rw [mem_dedupKeepFirst, List.mem_append] at hx
    rcases hx with hx | hx
    · exact ref_endpoint_cases ign b p hcl x hx
    · exact Or.inl hx

theorem ref_sub_out_entities (p : Payload) (b ign : Bool) (x : String)
    (hx : x ∈ referencedOf ((resolveKgSimple p b ign).relations)) :
    x ∈ (resolveKgSimple p b ign).entities := by
  rw [out_entities]
  by_cases hb : b
  · rw [if_pos hb]
    exact hx
  · rw [if_neg hb, mem_dedupKeepFirst, List.mem_append]
    exact Or.inl hx

theorem out_entities_nodup (p : Payload) (b ign : Bool) :
    (resolveKgSimple p b ign).entities.Nodup := by
  rw [out_entities]
  by_cases hb : b
  · rw [if_pos hb]
    exact referencedOf_nodup _
  · rw [if_neg hb]
    exact nodup_dedupKeepFirst _

theorem out_key_unique (ign b : Bool) (p : Payload) (hcl : ClosedPayload p) (x y : String)
    (hx : x ∈ (resolveKgSimple p b ign).entities) (hy : y ∈ (resolveKgSimple p b ign).entities)
    (hk : normalizeKey ign x = normalizeKey ign y) (hne : normalizeKey ign x ≠ "") : x = y := by
  rcases out_entities_cases ign b p hcl x hx with hxr | hxe
  · rcases out_entities_cases ign b p hcl y hy with hyr | hye
    · exact repsList_key_injective ign p.entities x y hxr hyr hk
    · exact absurd (hk.trans hye) hne
  · exact absurd hxe hne

theorem out_canonKg_id (ign b : Bool) (p : Payload) (hcl : ClosedPayload p) (e : String)
    (he : e ∈ (resolveKgSimple p b ign).entities) :
    canonKg ign (resolveKgSimple p b ign).entities e = e := by
  by_cases hk : normalizeKey ign e = ""
  · unfold canonKg
    rw [if_pos hk]
  · obtain ⟨f, hf, hkf, hfm⟩ := find?_key_self ign (resolveKgSimple p b ign).entities e he
    have hfe : f = e := out_key_unique ign b p hcl f e hfm he hkf (by rw [hkf]; exact hk)
    unfold canonKg
    rw [if_neg hk, hf, hfe]
    rfl

theorem repsAux_key_unique_filter (ign : Bool) (L : List String) (seen : List String)
    (hnd : L.Nodup)
    (huq : ∀ x ∈ L, ∀ y ∈ L, normalizeKey ign x = normalizeKey ign y →
      normalizeKey ign x ≠ "" → x = y)
    (hseen : ∀ x ∈ L, normalizeKey ign x ≠ "" → normalizeKey ign x ∉ seen) :
    repsAux ign seen L = L.filter (fun x => normalizeKey ign x ≠ "") := by
  induction L generalizing seen with
  | nil => rfl
  | cons e L ih =>
    have hnd' := List.nodup_cons.mp hnd
    have huqL : ∀ x ∈ L, ∀ y ∈ L, normalizeKey ign x = normalizeKey ign y →
        normalizeKey ign x ≠ "" → x = y :=
      fun x hx y hy => huq x (List.mem_cons_of_mem _ hx) y (List.mem_cons_of_mem _ hy)
    by_cases hk : normalizeKey ign e = ""
    · have h1 : repsAux ign seen (e :: L) = repsAux ign seen L := by
        show (if normalizeKey ign e = "" ∨ normalizeKey ign e ∈ seen then repsAux ign seen L
              else e :: repsAux ign (normalizeKey ign e :: seen) L) = repsAux ign seen L
        rw [if_pos (Or.inl hk)]
      have h2 : (e :: L).filter (fun x => normalizeKey ign x ≠ "") =
          L.filter (fun x => normalizeKey ign x ≠ "") := by
        rw [List.filter_cons]
        simp [hk]
      rw [h1, h2]
      exact ih seen hnd'.2 huqL (fun x hx => hseen x (List.mem_cons_of_mem _ hx))
    · have hcond : ¬(normalizeKey ign e = "" ∨ normalizeKey ign e ∈ seen) := by
        rintro (h | h)
        · exact hk h
        · exact hseen e (List.mem_cons_self _ _) hk h
      have h1 : repsAux ign seen (e :: L) = e :: repsAux ign (normalizeKey ign e :: seen) L := by
        show (if normalizeKey ign e = "" ∨ normalizeKey ign e ∈ seen then repsAux ign seen L
              else e :: repsAux ign (normalizeKey ign e :: seen) L) =
            e :: repsAux ign (normalizeKey ign e :: seen) L
        rw [if_neg hcond]
      have h2 : (e :: L).filter (fun x => normalizeKey ign x ≠ "") =
          e :: L.filter (fun x => normalizeKey ign x ≠ "") := by
        rw [List.filter_cons]
        simp [hk]
      rw [h1, h2]
      congr 1
      refine ih (normalizeKey ign e :: seen) hnd'.2 huqL ?_
      intro x hx hxk
      rw [List.mem_cons]
      push_neg
      refine ⟨?_, hseen x (List.mem_cons_of_mem _ hx) hxk⟩
      intro hxe
      have hx_eq_e := huq x (List.mem_cons_of_mem _ hx) e (List.mem_cons_self _ _) hxe hxk
      exact hnd'.1 (hx_eq_e ▸ hx)

theorem repsList_key_unique_filter (ign : Bool) (L : List String)
    (hnd : L.Nodup)
    (huq : ∀ x ∈ L, ∀ y ∈ L, normalizeKey ign x = normalizeKey ign y →
      normalizeKey ign x ≠ "" → x = y) :
    repsList ign L = L.filter (fun x => normalizeKey ign x ≠ "") :=
  repsAux_key_unique_filter ign L [] hnd huq (by intro x _ _; simp)

theorem dedupKeepFirst_append_eq {α : Type} [DecidableEq α] (A B : List α)
    (hA : A.Nodup) (hB : B.Nodup) :
    dedupKeepFirst (A ++ B) = A ++ B.filter (fun x => x ∉ A) := by
  unfold dedupKeepFirst
  rw [List.foldl_append,
    show A.foldl addUnique ([] : List α) = dedupKeepFirst A from rfl,
    dedupKeepFirst_of_nodup A hA, foldl_addUnique_of_nodup B A hB]

/-- Idempotence of resolveKgSimple on endpoint-closed payloads: the
output is a fixpoint, for either prune flag and either prefix flag. -/
theorem resolveKgSimple_fixpoint (ign b : Bool) (p : Payload) (hcl : ClosedPayload p) :
    resolveKgSimple (resolveKgSimple p b ign) b ign = resolveKgSimple p b ign := by
  have hlook : ∀ x ∈ (resolveKgSimple p b ign).entities,
      lookupCanon (resState ign (resolveKgSimple p b ign).entities).oldToNew x = x := by
    intro x hx
    rw [lookupCanon_of_mem ign _ x hx, out_canonKg_id ign b p hcl x hx]
  have hremap : remapRelations (resState ign (resolveKgSimple p b ign).entities).oldToNew
      (resolveKgSimple p b ign).relations = (resolveKgSimple p b ign).relations := by
    unfold remapRelations
    have hfix : ∀ tr ∈ (resolveKgSimple p b ign).relations,
        (lookupCanon (resState ign (resolveKgSimple p b ign).entities).oldToNew tr.1, tr.2.1,
         lookupCanon (resState ign (resolveKgSimple p b ign).entities).oldToNew tr.2.2) = tr := by
      intro tr htr
      have hends := endpoints_mem_referencedOf (resolveKgSimple p b ign).relations tr htr
      rw [hlook tr.1 (ref_sub_out_entities p b ign tr.1 hends.1),
          hlook tr.2.2 (ref_sub_out_entities p b ign tr.2.2 hends.2)]
    refine Eq.trans (List.map_congr_left ?_) (List.map_id _)
    exact hfix
  have hdedup : dedupRels (resolveKgSimple p b ign).relations = (resolveKgSimple p b ign).relations := by
    rw [out_relations]
    exact dedupRels_idem _
  have hrel2 : (resolveKgSimple (resolveKgSimple p b ign) b ign).relations =
      (resolveKgSimple p b ign).relations := by
    rw [out_relations, hremap, hdedup]
  have hent2 : (resolveKgSimple (resolveKgSimple p b ign) b ign).entities =
      (resolveKgSimple p b ign).entities := by
    rw [out_entities, hrel2]
    by_cases hb : b
    · rw [if_pos hb]
      conv_rhs => rw [out_entities p b ign, if_pos hb]
    · rw [if_neg hb]
      have hreps2 : repsList ign (resolveKgSimple p b ign).entities =
          (resolveKgSimple p b ign).entities.filter (fun x => normalizeKey ign x ≠ "") :=
        repsList_key_unique_filter ign _ (out_entities_nodup p b ign)
          (fun x hx y hy => out_key_unique ign b p hcl x y hx hy)
      rw [hreps2]
      have hE : (resolveKgSimple p b ign).entities =
          referencedOf (resolveKgSimple p b ign).relations ++
            (repsList ign p.entities).filter
              (fun x => x ∉ referencedOf (resolveKgSimple p b ign).relations) := by
        conv_lhs => rw [out_entities p b ign, if_neg hb]
        exact dedupKeepFirst_append_eq _ _ (referencedOf_nodup _) (repsList_nodup ign p.entities)
      rw [dedupKeepFirst_append_eq _ _ (referencedOf_nodup _)
        ((out_entities_nodup p b ign).filter _)]
      conv_lhs => rw [hE]
      rw [List.filter_append, List.filter_append]
      have hl1 : ((referencedOf (resolveKgSimple p b ign).relations).filter
          (fun x => normalizeKey ign x ≠ "")).filter
            (fun x => x ∉ referencedOf (resolveKgSimple p b ign).relations) = [] := by
        rw [List.filter_eq_nil_iff]
        intro a ha
        have : a ∈ referencedOf (resolveKgSimple p b ign).relations :=
          (List.mem_filter.mp ha).1
        simp [this]
      have hl2 : ((repsList ign p.entities).filter
          (fun x => x ∉ referencedOf (resolveKgSimple p b ign).relations)).filter
            (fun x => normalizeKey ign x ≠ "") =
          (repsList ign p.entities).filter
            (fun x => x ∉ referencedOf (resolveKgSimple p b ign).relations) := by
        rw [List.filter_eq_self]
        intro a ha
        have har : a ∈ repsList ign p.entities := (List.mem_filter.mp ha).1
        have := (mem_repsList ign p.entities a).mp har
        simp [this.1]
      have hl3 : ((repsList ign p.entities).filter
          (fun x => x ∉ referencedOf (resolveKgSimple p b ign).relations)).filter
            (fun x => x ∉ referencedOf (resolveKgSimple p b ign).relations) =
          (repsList ign p.entities).filter
            (fun x => x ∉ referencedOf (resolveKgSimple p b ign).relations) := by
        rw [List.filter_eq_self]
        intro a ha
        have := (List.mem_filter.mp ha).2
        exact this
      rw [hl2, hl1, hl3, List.nil_append]
      exact hE.symm
  have h1 := hent2
  have h2 := hrel2
  cases hq : resolveKgSimple (resolveKgSimple p b ign) b ign with
  | mk ents rels =>
    cases hq2 : resolveKgSimple p b ign with
    | mk ents2 rels2 =>
      rw [hq, hq2] at h1 h2
      simp only [] at h1 h2
      rw [h1, h2]

/-! Part: Lemmas: what normalizeKey computes -/

theorem isJsWs_not_alnum (c : Char) (h : isJsWs c = true) : isLowerAlnum c = false := by
  unfold isJsWs at h
  simp only [Bool.or_eq_true, decide_eq_true_eq] at h
  rcases h with (((((rfl | rfl) | rfl) | rfl) | rfl) | rfl) | rfl <;> decide

theorem isJsWs_toLower (c : Char) (h : isJsWs c = true) : Char.toLower c = c := by
  unfold isJsWs at h
  simp only [Bool.or_eq_true, decide_eq_true_eq] at h
  rcases h with (((((rfl | rfl) | rfl) | rfl) | rfl) | rfl) | rfl <;> decide

theorem filter_collapseWsAux (b : Bool) (cs : List Char) :
    (collapseWsAux b cs).filter isLowerAlnum = cs.filter isLowerAlnum := by
  induction cs generalizing b with
  | nil => rfl
  | cons c cs ih =>
    unfold collapseWsAux
    by_cases hc : isJsWs c = true
    · rw [if_pos hc]
      have hcf : isLowerAlnum c = false := isJsWs_not_alnum c hc
      have hsp : isLowerAlnum ' ' = false := by decide
      by_cases hb : b = true
      · rw [if_pos hb, ih true, List.filter_cons, hcf]
        simp
      · rw [if_neg hb, List.filter_cons, hsp, List.filter_cons, hcf]
        simp [ih true]
    · rw [if_neg hc, List.filter_cons, List.filter_cons]
      cases ha : isLowerAlnum c
      · simp [ih false]
      · simp [ih false]

theorem filter_dropWhile (q r : Char → Bool) (l : List Char)
    (h : ∀ c, q c = true → r c = false) :
    (l.dropWhile q).filter r = l.filter r := by
  induction l with
  | nil => rfl
  | cons c l ih =>
    by_cases hc : q c = true
    · rw [List.dropWhile_cons_of_pos hc, ih, List.filter_cons, h c hc]
      simp
    · rw [List.dropWhile_cons_of_neg hc]

theorem filter_trimList (r : Char → Bool) (l : List Char)
    (h : ∀ c, isJsWs c = true → r c = false) :
    (trimList l).filter r = l.filter r := by
  unfold trimList
  rw [List.filter_reverse, filter_dropWhile isJsWs r _ h, List.filter_reverse,
    List.reverse_reverse, filter_dropWhile isJsWs r _ h]

/-- The net effect of normalizeKey: after the optional prefix strip, the
result is exactly the lowercased alphanumeric characters of the input,
in order; trim and whitespace collapsing contribute nothing to the final
value, and spaces do not survive. -/
theorem normalizeKey_eq_filter (ign : Bool) (id : String) :
    normalizeKey ign id =
      String.mk (((if ign then afterColon id.data else id.data).map Char.toLower).filter
        isLowerAlnum) := by
  unfold normalizeKey collapseWs
  congr 1
  rw [filter_collapseWsAux]
  rw [List.filter_map Char.toLower (trimList (if ign then afterColon id.data else id.data))]
  rw [filter_trimList (isLowerAlnum ∘ Char.toLower) _ (by
    intro c hc
    have h1 := isJsWs_toLower c hc
    have h2 := isJsWs_not_alnum c hc
    simp only [Function.comp_apply, h1]
    exact h2)]
  rw [← List.filter_map Char.toLower]

/-! Part: Lemmas: the vertical-bar join key -/

theorem data_inj (s t : String) (h : s.data = t.data) : s = t := by
  cases s with
  | mk d1 =>
    cases t with
    | mk d2 => exact congrArg String.mk h

theorem append_bar_cancel (a b u v : List Char) (ha : '|' ∉ a) (hb : '|' ∉ b)
    (h : a ++ '|' :: u = b ++ '|' :: v) : a = b ∧ u = v := by
  induction a generalizing b with
  | nil =>
    cases b with
    | nil => simpa using h
    | cons y b2 =>
      rw [List.nil_append, List.cons_append] at h
      injection h with h1 h2
      exact absurd (h1 ▸ List.mem_cons_self y b2) hb
  | cons x a2 ih =>
    cases b with
    | nil =>
      rw [List.nil_append, List.cons_append] at h
      injection h with h1 h2
      exact absurd (h1.symm ▸ List.mem_cons_self x a2) ha
    | cons y b2 =>
      rw [List.cons_append, List.cons_append] at h
      injection h with h1 h2
      obtain ⟨h3, h4⟩ := ih b2 (fun hm => ha (List.mem_cons_of_mem x hm))
        (fun hm => hb (List.mem_cons_of_mem y hm)) h2
      exact ⟨by rw [h1, h3], h4⟩

theorem joinKey_data (tr : Triple) :
    (joinKey tr).data = tr.1.data ++ '|' :: (tr.2.1.data ++ '|' :: tr.2.2.data) := by
  unfold joinKey
  simp [String.data_append]

theorem joinKey_inj (t1 t2 : Triple)
    (h11 : '|' ∉ t1.1.data) (h12 : '|' ∉ t1.2.1.data) (h13 : '|' ∉ t1.2.2.data)
    (h21 : '|' ∉ t2.1.data) (h22 : '|' ∉ t2.2.1.data) (h23 : '|' ∉ t2.2.2.data)
    (h : joinKey t1 = joinKey t2) : t1 = t2 := by
  have hd : (joinKey t1).data = (joinKey t2).data := by rw [h]
  rw [joinKey_data, joinKey_data] at hd
  obtain ⟨ha, hrest⟩ := append_bar_cancel _ _ _ _ h11 h21 hd
  obtain ⟨hp, ht⟩ := append_bar_cancel _ _ _ _ h12 h22 hrest
  obtain ⟨s1, p1, o1⟩ := t1
  obtain ⟨s2, p2, o2⟩ := t2
  simp only at ha hp ht
  rw [data_inj _ _ ha, data_inj _ _ hp, data_inj _ _ ht]

theorem lookupCanon_barFree (ign : Bool) (p : Payload)
    (hE : ∀ e ∈ p.entities, '|' ∉ e.data) (x : String) (hx : '|' ∉ x.data) :
    '|' ∉ (lookupCanon (resState ign p.entities).oldToNew x).data := by
  by_cases hm : x ∈ p.entities
  · rw [lookupCanon_of_mem ign p.entities x hm]
    exact hE _ (canonKg_mem ign p.entities x hm)
  · rw [lookupCanon_of_not_mem ign p.entities x hm]
    exact hx

theorem remap_barFree (ign : Bool) (p : Payload) (hbf : BarFree p) (tr : Triple)
    (htr : tr ∈ remapRelations (resState ign p.entities).oldToNew p.relations) :
    '|' ∉ tr.1.data ∧ '|' ∉ tr.2.1.data ∧ '|' ∉ tr.2.2.data := by
  rw [remapRelations, List.mem_map] at htr
  obtain ⟨tr0, htr0, rfl⟩ := htr
  obtain ⟨hb1, hb2, hb3⟩ := hbf.2 tr0 htr0
  exact ⟨lookupCanon_barFree ign p hbf.1 tr0.1 hb1, hb2,
    lookupCanon_barFree ign p hbf.1 tr0.2.2 hb3⟩

/-! Part: Lemmas: the modelled service state -/

theorem accumUnique_append {α : Type} [DecidableEq α] (idOf : α → String)
    (acc l1 l2 : List α) :
    accumUnique idOf acc (l1 ++ l2) = accumUnique idOf (accumUnique idOf acc l1) l2 := by
  unfold accumUnique
  rw [List.foldl_append]

theorem accumUnique_cons {α : Type} [DecidableEq α] (idOf : α → String)
    (acc : List α) (x : α) (l : List α) :
    accumUnique idOf acc (x :: l) =
      accumUnique idOf (if idOf x ∈ acc.map idOf then acc else acc ++ [x]) l := rfl

theorem accumUnique_prefix {α : Type} [DecidableEq α] (idOf : α → String)
    (acc l : List α) : ∃ ext, accumUnique idOf acc l = acc ++ ext := by
  induction l generalizing acc with
  | nil => exact ⟨[], by simp [accumUnique]⟩
  | cons x l ih =>
    rw [accumUnique_cons]
    by_cases hx : idOf x ∈ acc.map idOf
    · rw [if_pos hx]
      exact ih acc
    · rw [if_neg hx]
      obtain ⟨ext, hext⟩ := ih (acc ++ [x])
      exact ⟨[x] ++ ext, by rw [hext, List.append_assoc]⟩

theorem accumUnique_id_mem {α : Type} [DecidableEq α] (idOf : α → String)
    (acc l : List α) (x : α) (hx : x ∈ l) :
    idOf x ∈ (accumUnique idOf acc l).map idOf := by
  induction l generalizing acc with
  | nil => cases hx
  | cons y l ih =>
    rw [accumUnique_cons]
    rcases List.mem_cons.mp hx with rfl | hx
    · by_cases hy : idOf x ∈ acc.map idOf
      · rw [if_pos hy]
        obtain ⟨ext, hext⟩ := accumUnique_prefix idOf acc l
        rw [hext, List.map_append]
        exact List.mem_append_left _ hy
      · rw [if_neg hy]
        obtain ⟨ext, hext⟩ := accumUnique_prefix idOf (acc ++ [x]) l
        rw [hext, List.map_append, List.map_append]
        exact List.mem_append_left _ (List.mem_append_right _ (by simp))
    · by_cases hy : idOf y ∈ acc.map idOf
      · rw [if_pos hy]
        exact ih acc hx
      · rw [if_neg hy]
        exact ih (acc ++ [y]) hx

theorem accumUnique_of_ids_present {α : Type} [DecidableEq α] (idOf : α → String)
    (acc l : List α) (h : ∀ x ∈ l, idOf x ∈ acc.map idOf) :
    accumUnique idOf acc l = acc := by
  induction l with
  | nil => rfl
  | cons x l ih =>
    rw [accumUnique_cons, if_pos (h x (List.mem_cons_self _ _))]
    exact ih (fun y hy => h y (List.mem_cons_of_mem x hy))

theorem accumUnique_idem {α : Type} [DecidableEq α] (idOf : α → String) (acc l : List α) :
    accumUnique idOf (accumUnique idOf acc l) l = accumUnique idOf acc l :=
  accumUnique_of_ids_present idOf _ l (fun x hx => accumUnique_id_mem idOf acc l x hx)

theorem accumUnique_ids_nodup {α : Type} [DecidableEq α] (idOf : α → String)
    (acc l : List α) (h : (acc.map idOf).Nodup) :
    ((accumUnique idOf acc l).map idOf).Nodup := by
  induction l generalizing acc with
  | nil => exact h
  | cons x l ih =>
    rw [accumUnique_cons]
    by_cases hx : idOf x ∈ acc.map idOf
    · rw [if_pos hx]
      exact ih acc h
    · rw [if_neg hx]
      refine ih (acc ++ [x]) ?_
      rw [List.map_append]
      simpa [List.nodup_append, hx] using h

theorem runResolve_idem (st : ResolutionState) (ms : List EntityMention)
    (rs : List RawRelationship) :
    runResolve (runResolve st ms rs) ms rs = runResolve st ms rs := by
  unfold runResolve
  simp only [ResolutionState.mk.injEq]
  exact ⟨accumUnique_idem _ _ _, accumUnique_idem _ _ _⟩

theorem runResolve_append (st : ResolutionState) (m1 m2 : List EntityMention)
    (r1 r2 : List RawRelationship) :
    runResolve (runResolve st m1 r1) m2 r2 = runResolve st (m1 ++ m2) (r1 ++ r2) := by
  unfold runResolve
  simp only [ResolutionState.mk.injEq]
  exact ⟨(accumUnique_append _ _ _ _).symm, (accumUnique_append _ _ _ _).symm⟩

/-! Part: Claim theorems -/

/-- C1 counterexample: with the default ignorePrefix behavior the type
prefix is stripped before bucketing, so an organization named Amazon and
a location named Amazon receive the same canonical resolved id (the
first-seen raw id), and the resolved output keeps only one of them;
cross-type isolation fails on the code as claimed. -/
theorem c1_counterexample :
    lookupCanon (resState true ["organization:Amazon", "location:Amazon"]).oldToNew
        "location:Amazon" = "organization:Amazon" ∧
    lookupCanon (resState true ["organization:Amazon", "location:Amazon"]).oldToNew
        "organization:Amazon" = "organization:Amazon" ∧
    resolveKgSimple ⟨["organization:Amazon", "location:Amazon"], []⟩ false true =
      ⟨["organization:Amazon"], []⟩ := by
  refine ⟨by decide, by decide, by decide⟩

/-- C1 amended: resolveKgSimple keeps ids with different normalized keys
in distinct canonical buckets only when the prefix is not ignored: with
ignorePrefix false, the type prefix stays part of the key, and two
entities of the payload whose keys differ are assigned distinct
canonical ids. -/
theorem c1_amended (p : Payload) (e1 e2 : String)
    (h1 : e1 ∈ p.entities) (h2 : e2 ∈ p.entities)
    (hk : normalizeKey false e1 ≠ normalizeKey false e2) :
    lookupCanon (resState false p.entities).oldToNew e1 ≠
      lookupCanon (resState false p.entities).oldToNew e2 := by
  rw [lookupCanon_of_mem false p.entities e1 h1, lookupCanon_of_mem false p.entities e2 h2]
  intro heq
  apply hk
  rw [← canonKg_key false p.entities e1, ← canonKg_key false p.entities e2, heq]

/-- C1 witness: the amended theorem applied to the Amazon payload with
ignorePrefix false keeps the organization and the location distinct. -/
theorem c1_witness :
    ("organization:Amazon" : String) ∈
        (Payload.mk ["organization:Amazon", "location:Amazon"] []).entities ∧
    ("location:Amazon" : String) ∈
        (Payload.mk ["organization:Amazon", "location:Amazon"] []).entities ∧
    normalizeKey false "organization:Amazon" ≠ normalizeKey false "location:Amazon" ∧
    lookupCanon (resState false
        (Payload.mk ["organization:Amazon", "location:Amazon"] []).entities).oldToNew
        "organization:Amazon" ≠
      lookupCanon (resState false
        (Payload.mk ["organization:Amazon", "location:Amazon"] []).entities).oldToNew
        "location:Amazon" :=
  ⟨by decide, by decide, by decide,
   c1_amended (Payload.mk ["organization:Amazon", "location:Amazon"] [])
     "organization:Amazon" "location:Amazon" (by decide) (by decide) (by decide)⟩

/-- C2 counterexample: the canonical id is the first-seen raw id of a
bucket, not an order-independent function of type and normalized name:
permuting the entity list changes the resolved output. -/
theorem c2_counterexample :
    (["b:Foo", "a:Foo"] : List String).Perm ["a:Foo", "b:Foo"] ∧
    resolveKgSimple ⟨["a:Foo", "b:Foo"], []⟩ false true ≠
      resolveKgSimple ⟨["b:Foo", "a:Foo"], []⟩ false true := by
  refine ⟨by decide, by decide⟩

/-- C2 amended: within one run the assignment is deterministic and
consistent: any two entities of the payload with the same nonempty
normalized key receive the same canonical id (the first entity of the
list carrying that key); order-independence across permutations does not
hold. -/
theorem c2_amended (ign : Bool) (p : Payload) (e1 e2 : String)
    (h1 : e1 ∈ p.entities) (h2 : e2 ∈ p.entities)
    (hk : normalizeKey ign e1 = normalizeKey ign e2) (hne : normalizeKey ign e1 ≠ "") :
    lookupCanon (resState ign p.entities).oldToNew e1 =
      lookupCanon (resState ign p.entities).oldToNew e2 := by
  rw [lookupCanon_of_mem ign p.entities e1 h1, lookupCanon_of_mem ign p.entities e2 h2]
  exact canonKg_eq_of_same_key ign p.entities e1 e2 h1 hk hne

/-- C2 witness: both spellings of Foo resolve to the same canonical id
within one run. -/
theorem c2_witness :
    ("a:Foo" : String) ∈ (Payload.mk ["a:Foo", "b:Foo"] []).entities ∧
    ("b:Foo" : String) ∈ (Payload.mk ["a:Foo", "b:Foo"] []).entities ∧
    normalizeKey true "a:Foo" = normalizeKey true "b:Foo" ∧
    normalizeKey true "a:Foo" ≠ "" ∧
    lookupCanon (resState true (Payload.mk ["a:Foo", "b:Foo"] []).entities).oldToNew "a:Foo" =
      lookupCanon (resState true (Payload.mk ["a:Foo", "b:Foo"] []).entities).oldToNew "b:Foo" :=
  ⟨by decide, by decide, by decide, by decide,
   c2_amended true (Payload.mk ["a:Foo", "b:Foo"] []) "a:Foo" "b:Foo"
     (by decide) (by decide) (by decide) (by decide)⟩

/-- C3 counterexample: resolveKgSimple is not idempotent on all
payloads: a relation endpoint absent from the entity list passes through
into the output entity list, where the second run buckets it first and
rewrites the relations. -/
theorem c3_counterexample :
    resolveKgSimple (resolveKgSimple ⟨["a:foo"], [("foo", "p", "a:foo")]⟩ false true) false true ≠
      resolveKgSimple ⟨["a:foo"], [("foo", "p", "a:foo")]⟩ false true := by
  decide

/-- C3 amended: on payloads whose relation endpoints all occur in the
entity list, resolveKgSimple is idempotent for every prune flag and
every prefix flag: applying it to its own output returns the output
unchanged, entities and relations alike. -/
theorem c3_amended (p : Payload) (b ign : Bool) (h : ClosedPayload p) :
    resolveKgSimple (resolveKgSimple p b ign) b ign = resolveKgSimple p b ign :=
  resolveKgSimple_fixpoint ign b p h

/-- C3 witness: the amended idempotence applied to a concrete closed
payload. -/
theorem c3_witness :
    ClosedPayload (Payload.mk ["a:x", "b:y"] [("a:x", "likes", "b:y")]) ∧
    resolveKgSimple (resolveKgSimple (Payload.mk ["a:x", "b:y"] [("a:x", "likes", "b:y")])
        false true) false true =
      resolveKgSimple (Payload.mk ["a:x", "b:y"] [("a:x", "likes", "b:y")]) false true :=
  ⟨by unfold ClosedPayload; decide,
   c3_amended (Payload.mk ["a:x", "b:y"] [("a:x", "likes", "b:y")]) false true
    (by unfold ClosedPayload; decide)⟩

/-- C4: in the modelled service, the weight of a canonical triple equals
the number of distinct raw relationship rows (distinct relationship ids)
ever mapped to that triple, and re-running the service on an
already-processed batch changes nothing, so weights never inflate.
Settled against the state model of the missing server-side service. -/
theorem c4_weight (st : ResolutionState) (ms : List EntityMention)
    (rs : List RawRelationship) (t : Triple)
    (hids : (st.admittedRels.map RawRelationship.relId).Nodup) :
    (relWeight st t =
      (dedupKeepFirst ((st.admittedRels.filter (fun r => relTriple st.mentions r = t)).map
        RawRelationship.relId)).length) ∧
    runResolve (runResolve st ms rs) ms rs = runResolve st ms rs := by
  constructor
  · have hsl : (st.admittedRels.filter (fun r => relTriple st.mentions r = t)).Sublist
        st.admittedRels := List.filter_sublist _
    have hsub : ((st.admittedRels.filter (fun r => relTriple st.mentions r = t)).map
        RawRelationship.relId).Nodup :=
      List.Nodup.sublist (List.Sublist.map _ hsl) hids
    rw [dedupKeepFirst_of_nodup _ hsub, List.length_map]
    rfl
  · exact runResolve_idem st ms rs

/-- C4 witness: two raw relationships from doc1 and doc2 that map to the
same canonical triple produce one resolved relationship row with weight
two and doc count two, and the weight is the distinct-row count given by
the theorem. -/
theorem c4_witness :
    ((runResolve ⟨[], []⟩
        [⟨"e1", "Acme", "organization", "doc1"⟩, ⟨"e1b", "acme", "organization", "doc2"⟩,
         ⟨"e2", "Bob", "person", "doc1"⟩, ⟨"e2b", "Bob", "person", "doc2"⟩]
        [⟨"r1", "e1", "works_at", "e2", "doc1"⟩,
         ⟨"r2", "e1b", "works_at", "e2b", "doc2"⟩]).admittedRels.map
      RawRelationship.relId).Nodup ∧
    (relWeight (runResolve ⟨[], []⟩
        [⟨"e1", "Acme", "organization", "doc1"⟩, ⟨"e1b", "acme", "organization", "doc2"⟩,
         ⟨"e2", "Bob", "person", "doc1"⟩, ⟨"e2b", "Bob", "person", "doc2"⟩]
        [⟨"r1", "e1", "works_at", "e2", "doc1"⟩,
         ⟨"r2", "e1b", "works_at", "e2b", "doc2"⟩])
        ("res::organization|acme", "works_at", "res::person|bob") =
      (dedupKeepFirst (((runResolve ⟨[], []⟩
        [⟨"e1", "Acme", "organization", "doc1"⟩, ⟨"e1b", "acme", "organization", "doc2"⟩,
         ⟨"e2", "Bob", "person", "doc1"⟩, ⟨"e2b", "Bob", "person", "doc2"⟩]
        [⟨"r1", "e1", "works_at", "e2", "doc1"⟩,
         ⟨"r2", "e1b", "works_at", "e2b", "doc2"⟩]).admittedRels.filter
          (fun r => relTriple (runResolve ⟨[], []⟩
            [⟨"e1", "Acme", "organization", "doc1"⟩, ⟨"e1b", "acme", "organization", "doc2"⟩,
             ⟨"e2", "Bob", "person", "doc1"⟩, ⟨"e2b", "Bob", "person", "doc2"⟩]
            [⟨"r1", "e1", "works_at", "e2", "doc1"⟩,
             ⟨"r2", "e1b", "works_at", "e2b", "doc2"⟩]).mentions r =
              ("res::organization|acme", "works_at", "res::person|bob"))).map
        RawRelationship.relId)).length) ∧
    relWeight (runResolve ⟨[], []⟩
        [⟨"e1", "Acme", "organization", "doc1"⟩, ⟨"e1b", "acme", "organization", "doc2"⟩,
         ⟨"e2", "Bob", "person", "doc1"⟩, ⟨"e2b", "Bob", "person", "doc2"⟩]
        [⟨"r1", "e1", "works_at", "e2", "doc1"⟩,
         ⟨"r2", "e1b", "works_at", "e2b", "doc2"⟩])
        ("res::organization|acme", "works_at", "res::person|bob") = 2 ∧
    relDocCount (runResolve ⟨[], []⟩
        [⟨"e1", "Acme", "organization", "doc1"⟩, ⟨"e1b", "acme", "organization", "doc2"⟩,
         ⟨"e2", "Bob", "person", "doc1"⟩, ⟨"e2b", "Bob", "person", "doc2"⟩]
        [⟨"r1", "e1", "works_at", "e2", "doc1"⟩,
         ⟨"r2", "e1b", "works_at", "e2b", "doc2"⟩])
        ("res::organization|acme", "works_at", "res::person|bob") = 2 ∧
    resolvedRelationships (runResolve ⟨[], []⟩
        [⟨"e1", "Acme", "organization", "doc1"⟩, ⟨"e1b", "acme", "organization", "doc2"⟩,
         ⟨"e2", "Bob", "person", "doc1"⟩, ⟨"e2b", "Bob", "person", "doc2"⟩]
        [⟨"r1", "e1", "works_at", "e2", "doc1"⟩,
         ⟨"r2", "e1b", "works_at", "e2b", "doc2"⟩]) =
      [(("res::organization|acme", "works_at", "res::person|bob"), 2, 2)] :=
  ⟨by decide,
   (c4_weight _ [] []
     ("res::organization|acme", "works_at", "res::person|bob") (by decide)).1,
   by decide, by decide, by decide⟩

/-- C5 counterexample: normalization strips spaces along with all other
non-alphanumerics and performs no Unicode decomposition: a multi-word
name does not normalize to space-separated words, and a diacritic
character is dropped rather than folded. -/
theorem c5_counterexample :
    normalizeKey true "person:John  Smith" = "johnsmith" ∧
    ("johnsmith" : String) ≠ "john smith" ∧
    normalizeKey true "Café" = "caf" ∧
    ("caf" : String) ≠ "cafe" := by
  refine ⟨by decide, by decide, by decide, by decide⟩

/-- C5 amended: the step order of normalizeKey is prefix strip, trim,
lowercase, whitespace collapse, then deletion of every character outside
a-z0-9 including spaces; there is no Unicode decomposition, and the net
result is exactly the lowercased alphanumeric characters of the
(prefix-stripped) input in order. -/
theorem c5_amended (ign : Bool) (id : String) :
    normalizeKey ign id =
      String.mk (((if ign then afterColon id.data else id.data).map Char.toLower).filter
        isLowerAlnum) :=
  normalizeKey_eq_filter ign id

/-- C6 counterexample: the dedup key joins components with a vertical
bar, so two different remapped triples whose components contain a bar
can collide; the second one is dropped from the output even though it is
not identical to the kept triple, refuting the claim for payloads with
bar-bearing ids. -/
theorem c6_counterexample :
    remapRelations (resState true ([] : List String)).oldToNew
        [("a|b", "c", "d"), ("a", "b|c", "d")] =
      [("a|b", "c", "d"), ("a", "b|c", "d")] ∧
    (resolveKgSimple ⟨[], [("a|b", "c", "d"), ("a", "b|c", "d")]⟩ false true).relations =
      [("a|b", "c", "d")] ∧
    (("a", "b|c", "d") : Triple) ∉
      (resolveKgSimple ⟨[], [("a|b", "c", "d"), ("a", "b|c", "d")]⟩ false true).relations ∧
    (("a", "b|c", "d") : Triple) ≠ ("a|b", "c", "d") := by
  refine ⟨by decide, by decide, by decide, by decide⟩

/-- C6 amended: when no entity id, endpoint or predicate contains a
vertical bar, every input relationship survives: its remapped triple,
with each endpoint looked up in the mapping and falling back to the raw
id, is a member of the output relation list, so a relationship can only
coalesce with an identical remapped triple. -/
theorem c6_amended (p : Payload) (b ign : Bool) (hbf : BarFree p) (tr : Triple)
    (htr : tr ∈ p.relations) :
    (lookupCanon (resState ign p.entities).oldToNew tr.1, tr.2.1,
     lookupCanon (resState ign p.entities).oldToNew tr.2.2) ∈
      (resolveKgSimple p b ign).relations := by
  rw [out_relations]
  have hmem : (lookupCanon (resState ign p.entities).oldToNew tr.1, tr.2.1,
      lookupCanon (resState ign p.entities).oldToNew tr.2.2) ∈
      remapRelations (resState ign p.entities).oldToNew p.relations := by
    rw [remapRelations, List.mem_map]
    exact ⟨tr, htr, rfl⟩
  unfold dedupRels
  refine mem_dedupLoop_of_unique [] _ _ hmem (by simp) ?_
  intro tr2 htr2 hjk
  have h1 := remap_barFree ign p hbf _ htr2
  have h2 := remap_barFree ign p hbf _ hmem
  exact joinKey_inj tr2 _ h1.1 h1.2.1 h1.2.2 h2.1 h2.2.1 h2.2.2 hjk

/-- C6 witness: the amended theorem applied to a bar-free payload with
an unresolved object endpoint: the relationship passes through with the
raw id on the unresolved side. -/
theorem c6_witness :
    BarFree (Payload.mk ["a:x"] [("a:x", "likes", "zzz")]) ∧
    (("a:x", "likes", "zzz") : Triple) ∈ (Payload.mk ["a:x"] [("a:x", "likes", "zzz")]).relations ∧
    (lookupCanon (resState true (Payload.mk ["a:x"] [("a:x", "likes", "zzz")]).entities).oldToNew
        "a:x", "likes",
     lookupCanon (resState true (Payload.mk ["a:x"] [("a:x", "likes", "zzz")]).entities).oldToNew
        "zzz") ∈
      (resolveKgSimple (Payload.mk ["a:x"] [("a:x", "likes", "zzz")]) false true).relations :=
  ⟨by unfold BarFree; decide, by decide,
   c6_amended (Payload.mk ["a:x"] [("a:x", "likes", "zzz")]) false true
     (by unfold BarFree; decide) ("a:x", "likes", "zzz") (by decide)⟩

/-- C7: a mention whose id normalizes to the empty key is excluded from
canonicalization: it maps only to itself, no other entity is ever mapped
to it, it never becomes a bucket representative, and every relationship
referencing it still passes through the remap with its raw id; the
resolver is a total function, so the rest of the batch is unaffected. -/
theorem c7_empty_key (ign : Bool) (p : Payload) (e : String)
    (he : e ∈ p.entities) (hk : normalizeKey ign e = "") :
    lookupCanon (resState ign p.entities).oldToNew e = e ∧
    (∀ x ∈ p.entities, x ≠ e → lookupCanon (resState ign p.entities).oldToNew x ≠ e) ∧
    e ∉ bucketReps (resState ign p.entities) ∧
    ∀ tr ∈ p.relations,
      (lookupCanon (resState ign p.entities).oldToNew tr.1, tr.2.1,
       lookupCanon (resState ign p.entities).oldToNew tr.2.2) ∈
        remapRelations (resState ign p.entities).oldToNew p.relations ∧
      (tr.1 = e → lookupCanon (resState ign p.entities).oldToNew tr.1 = e) ∧
      (tr.2.2 = e → lookupCanon (resState ign p.entities).oldToNew tr.2.2 = e) := by
  have hself : lookupCanon (resState ign p.entities).oldToNew e = e := by
    rw [lookupCanon_of_mem ign p.entities e he]
    unfold canonKg
    rw [if_pos hk]
  refine ⟨hself, ?_, ?_, ?_⟩
  · intro x hx hne
    rw [lookupCanon_of_mem ign p.entities x hx]
    intro heq
    by_cases hkx : normalizeKey ign x = ""
    · have : canonKg ign p.entities x = x := by
        unfold canonKg
        rw [if_pos hkx]
      exact hne (by rw [← this, heq])
    · apply hkx
      rw [← canonKg_key ign p.entities x, heq, hk]
  · rw [bucketReps_resState]
    intro hmem
    exact ((mem_repsList ign p.entities e).mp hmem).1 hk
  · intro tr htr
    refine ⟨?_, fun h1 => by rw [h1, hself], fun h2 => by rw [h2, hself]⟩
    rw [remapRelations, List.mem_map]
    exact ⟨tr, htr, rfl⟩

/-- C7 witness: an all-punctuation id maps to itself, is no bucket
representative, and its relationship passes through with the raw id. -/
theorem c7_witness :
    ("!!!" : String) ∈ (Payload.mk ["!!!", "a:x"] [("!!!", "p", "a:x")]).entities ∧
    normalizeKey true "!!!" = "" ∧
    (lookupCanon (resState true
        (Payload.mk ["!!!", "a:x"] [("!!!", "p", "a:x")]).entities).oldToNew "!!!" = "!!!" ∧
     (∀ x ∈ (Payload.mk ["!!!", "a:x"] [("!!!", "p", "a:x")]).entities, x ≠ "!!!" →
       lookupCanon (resState true
         (Payload.mk ["!!!", "a:x"] [("!!!", "p", "a:x")]).entities).oldToNew x ≠ "!!!") ∧
     ("!!!" : String) ∉ bucketReps (resState true
       (Payload.mk ["!!!", "a:x"] [("!!!", "p", "a:x")]).entities) ∧
     ∀ tr ∈ (Payload.mk ["!!!", "a:x"] [("!!!", "p", "a:x")]).relations,
       (lookupCanon (resState true
          (Payload.mk ["!!!", "a:x"] [("!!!", "p", "a:x")]).entities).oldToNew tr.1, tr.2.1,
        lookupCanon (resState true
          (Payload.mk ["!!!", "a:x"] [("!!!", "p", "a:x")]).entities).oldToNew tr.2.2) ∈
         remapRelations (resState true
           (Payload.mk ["!!!", "a:x"] [("!!!", "p", "a:x")]).entities).oldToNew
           (Payload.mk ["!!!", "a:x"] [("!!!", "p", "a:x")]).relations ∧
       (tr.1 = "!!!" → lookupCanon (resState true
          (Payload.mk ["!!!", "a:x"] [("!!!", "p", "a:x")]).entities).oldToNew tr.1 = "!!!") ∧
       (tr.2.2 = "!!!" → lookupCanon (resState true
          (Payload.mk ["!!!", "a:x"] [("!!!", "p", "a:x")]).entities).oldToNew tr.2.2 = "!!!")) :=
  ⟨by decide, by decide,
   c7_empty_key true (Payload.mk ["!!!", "a:x"] [("!!!", "p", "a:x")]) "!!!"
     (by decide) (by decide)⟩

/-- C8: in the modelled service, resolving batch one and then batch two
reaches exactly the state of resolving both batches in one call, and the
derived resolved-entity and resolved-relationship tables agree; the
incremental mode only narrows the input while running the same
algorithm.  Settled against the state model of the missing server-side
service. -/
theorem c8_incremental (st : ResolutionState) (m1 m2 : List EntityMention)
    (r1 r2 : List RawRelationship) :
    runResolve (runResolve st m1 r1) m2 r2 = runResolve st (m1 ++ m2) (r1 ++ r2) ∧
    resolvedEntities (runResolve (runResolve st m1 r1) m2 r2) =
      resolvedEntities (runResolve st (m1 ++ m2) (r1 ++ r2)) ∧
    resolvedRelationships (runResolve (runResolve st m1 r1) m2 r2) =
      resolvedRelationships (runResolve st (m1 ++ m2) (r1 ++ r2)) := by
  have h := runResolve_append st m1 m2 r1 r2
  exact ⟨h, by rw [h], by rw [h]⟩

/-- C9: the output graph of resolveKgSimple is closed under edge
endpoints: the subject and the object of every output relation occur in
the output entity list, for every payload, prune flag and prefix
flag. -/
theorem c9_endpoint_closure (p : Payload) (b ign : Bool) (tr : Triple)
    (htr : tr ∈ (resolveKgSimple p b ign).relations) :
    tr.1 ∈ (resolveKgSimple p b ign).entities ∧
    tr.2.2 ∈ (resolveKgSimple p b ign).entities := by
  have h := endpoints_mem_referencedOf (resolveKgSimple p b ign).relations tr htr
  exact ⟨ref_sub_out_entities p b ign tr.1 h.1, ref_sub_out_entities p b ign tr.2.2 h.2⟩

/-- C9 witness: endpoint closure at a concrete payload whose relation
references ids outside the entity list, under pruning. -/
theorem c9_witness :
    (("s", "r", "o") : Triple) ∈
      (resolveKgSimple (Payload.mk [] [("s", "r", "o")]) true true).relations ∧
    ("s" : String) ∈ (resolveKgSimple (Payload.mk [] [("s", "r", "o")]) true true).entities ∧
    ("o" : String) ∈ (resolveKgSimple (Payload.mk [] [("s", "r", "o")]) true true).entities :=
  ⟨by decide,
   (c9_endpoint_closure (Payload.mk [] [("s", "r", "o")]) true true ("s", "r", "o")
     (by decide)).1,
   (c9_endpoint_closure (Payload.mk [] [("s", "r", "o")]) true true ("s", "r", "o")
     (by decide)).2⟩

/-- C10: with pruning off, the output entity list is exactly the union
of the endpoints of the output relations and the bucket representatives;
an input entity with an empty normalized key is never a bucket
representative, so when additionally no output relation references it,
it is absent from the output entities. -/
theorem c10_empty_key_dropped (p : Payload) (ign : Bool) (e : String)
    (he : e ∈ p.entities) (hk : normalizeKey ign e = "")
    (hne : ∀ tr ∈ (resolveKgSimple p false ign).relations, tr.1 ≠ e ∧ tr.2.2 ≠ e) :
    e ∉ (resolveKgSimple p false ign).entities ∧
    (∀ x, x ∈ (resolveKgSimple p false ign).entities ↔
      x ∈ referencedOf (resolveKgSimple p false ign).relations ∨
        x ∈ bucketReps (resState ign p.entities)) ∧
    e ∉ bucketReps (resState ign p.entities) := by
  have hchar : ∀ x, x ∈ (resolveKgSimple p false ign).entities ↔
      x ∈ referencedOf (resolveKgSimple p false ign).relations ∨
        x ∈ bucketReps (resState ign p.entities) := by
    intro x
    rw [out_entities, if_neg (by simp), mem_dedupKeepFirst, List.mem_append,
      bucketReps_resState]
  have hrep : e ∉ bucketReps (resState ign p.entities) := by
    rw [bucketReps_resState]
    intro hmem
    exact ((mem_repsList ign p.entities e).mp hmem).1 hk
  refine ⟨?_, hchar, hrep⟩
  rw [hchar e]
  rintro (hr | hb)
  · rw [mem_referencedOf] at hr
    obtain ⟨tr, htr, hend⟩ := hr
    rcases hend with rfl | rfl
    · exact (hne tr htr).1 rfl
    · exact (hne tr htr).2 rfl
  · rw [bucketReps_resState] at hb
    exact ((mem_repsList ign p.entities e).mp hb).1 hk

/-- C10 witness: an all-punctuation entity with no relations is dropped
from the output even with pruning off. -/
theorem c10_witness :
    ("???" : String) ∈ (Payload.mk ["???", "a:x"] []).entities ∧
    normalizeKey true "???" = "" ∧
    (("???" : String) ∉ (resolveKgSimple (Payload.mk ["???", "a:x"] []) false true).entities ∧
     (∀ x, x ∈ (resolveKgSimple (Payload.mk ["???", "a:x"] []) false true).entities ↔
       x ∈ referencedOf (resolveKgSimple (Payload.mk ["???", "a:x"] []) false true).relations ∨
         x ∈ bucketReps (resState true (Payload.mk ["???", "a:x"] []).entities)) ∧
     ("???" : String) ∉ bucketReps (resState true (Payload.mk ["???", "a:x"] []).entities)) :=
  ⟨by decide, by decide,
   c10_empty_key_dropped (Payload.mk ["???", "a:x"] []) true "???"
     (by decide) (by decide) (by decide)⟩
